import Mathlib

/-!
Shallow embedding of the resume-parsing pipeline in `resume_parser.py`
(class ResumeParser), together with proofs about the behaviour of its
text normalizer and field extractors.

Strings are modelled as their underlying character lists.  Python's `\s`
regex class, `str.strip`, `str.split` and friends are modelled over the
ASCII whitespace characters (space, tab, newline, carriage return,
vertical tab, form feed); all inputs considered here are ASCII.  Python's
`str.lower`/`isalpha`/`isupper` are modelled by the ASCII versions from
`Char`.  The NLP fallback (`self.nlp`) corresponds to the configuration in
which spaCy is unavailable, i.e. `self.nlp = None`.
-/

namespace ResumeParser

/-- Python regex `\s` / `str.strip` whitespace, ASCII fragment. -/
def pyIsSpace (c : Char) : Bool :=
  c = ' ' || c = '\t' || c = '\n' || c = '\r' || c = '\x0b' || c = '\x0c'

/-- Python regex `\w`: alphanumeric or underscore (ASCII fragment). -/
def isWordChar (c : Char) : Bool :=
  c.isAlphanum || c = '_'

/-- The newline character class of the regex `\n+`. -/
def isNl (c : Char) : Bool := c = '\n'

/-- Collapse every maximal run of characters satisfying `p` to the single
character `r`; the flag `b` records whether the previous character was in
the class.  `collapseGo p r false l` models `re.sub(p+, r, l)`. -/
def collapseGo (p : Char → Bool) (r : Char) : Bool → List Char → List Char
  | _, [] => []
  | b, c :: cs =>
    if p c then
      if b then collapseGo p r true cs else r :: collapseGo p r true cs
    else c :: collapseGo p r false cs

/-- Python `str.lstrip()` (leading whitespace removal). -/
def lstripWs (l : List Char) : List Char := l.dropWhile pyIsSpace

/-- Python `str.rstrip()` (trailing whitespace removal). -/
def rstripWs (l : List Char) : List Char := (l.reverse.dropWhile pyIsSpace).reverse

/-- Python `str.strip()`. -/
def pyStrip (l : List Char) : List Char := rstripWs (lstripWs l)

/-- `_clean_text`, on character lists:
`text = re.sub(r'\s+', ' ', text)`, then `text = re.sub(r'\n+', '\n', text)`,
then `text.strip()`. -/
def cleanList (l : List Char) : List Char :=
  pyStrip (collapseGo isNl '\n' false (collapseGo pyIsSpace ' ' false l))

/-- `ResumeParser._clean_text`. -/
def cleanText (s : String) : String :=
  String.mk (cleanList s.data)

/-- No two adjacent characters are both whitespace. -/
def NoWsPair (a b : Char) : Prop := ¬(pyIsSpace a = true ∧ pyIsSpace b = true)

/-- Shape of whitespace-collapsed text: every whitespace character is a
plain space, and no two adjacent characters are both whitespace. -/
def GoodWs (l : List Char) : Prop :=
  (∀ c ∈ l, pyIsSpace c = true → c = ' ') ∧ l.Chain' NoWsPair


/-! ### Generic Python string helpers -/

/-- Python `str.lower()` (ASCII fragment). -/
def lowerL (l : List Char) : List Char := l.map Char.toLower

/-- Does `pat` occur at the start of `l`? (exact characters). -/
def leadsWith : List Char → List Char → Bool
  | [], _ => true
  | _ :: _, [] => false
  | p :: ps, c :: cs => p = c && leadsWith ps cs

/-- Python `pat in s` (substring containment). -/
def hasSubstr (pat : List Char) : List Char → Bool
  | [] => leadsWith pat []
  | c :: cs => leadsWith pat (c :: cs) || hasSubstr pat cs

/-- Python `s.count(pat)` for nonempty `pat`: number of non-overlapping
occurrences, scanning from the left.  The first argument is fuel,
instantiated with the length of the string, which suffices because every
step consumes at least one character. -/
def occGo (pat : List Char) : Nat → List Char → Nat
  | 0, _ => 0
  | _, [] => 0
  | fuel + 1, c :: cs =>
    if leadsWith pat (c :: cs) then
      1 + occGo pat fuel (List.drop (pat.length - 1) cs)
    else occGo pat fuel cs

def occCount (pat l : List Char) : Nat := occGo pat l.length l

/-- Python `s.split('\n')`: split at every newline, keeping empty parts. -/
def pySplitNl : List Char → List (List Char)
  | [] => [[]]
  | c :: cs =>
    if c = '\n' then [] :: pySplitNl cs
    else
      match pySplitNl cs with
      | [] => [[c]]
      | p :: ps => (c :: p) :: ps

/-- Python `s.split()` (no separator): split on whitespace runs, dropping
empty parts; `acc` is the reversed current word. -/
def splitWsGo (acc : List Char) : List Char → List (List Char)
  | [] => if acc.isEmpty then [] else [acc.reverse]
  | c :: cs =>
    if pyIsSpace c then
      if acc.isEmpty then splitWsGo [] cs
      else acc.reverse :: splitWsGo [] cs
    else splitWsGo (c :: acc) cs

def pySplitWs (l : List Char) : List (List Char) := splitWsGo [] l

/-- Python `str.title()` (ASCII fragment): uppercase every letter that
follows a non-letter, lowercase the other letters.  The flag records
whether the previous character was a letter. -/
def titleGo : Bool → List Char → List Char
  | _, [] => []
  | prev, c :: cs =>
    if c.isAlpha then
      (if prev then c.toLower else c.toUpper) :: titleGo true cs
    else
      c :: titleGo false cs

def pyTitle (l : List Char) : List Char := titleGo false l

/-- Python `list(set(xs))`, modelled as deduplication keeping the first
occurrence of each element.  (CPython's set iteration order is an
implementation detail; only the membership and duplicate-freeness of the
result are ever relied on below.) -/
def dedupGo {α : Type} [DecidableEq α] (seen : List α) : List α → List α
  | [] => []
  | x :: xs => if x ∈ seen then dedupGo seen xs else x :: dedupGo (x :: seen) xs

def pySetList {α : Type} [DecidableEq α] (l : List α) : List α := dedupGo [] l


/-! ### Keyword lists (`ResumeParser.__init__`) -/

/-- `self.skills_keywords`. -/
def skillsKeywords : List String :=
  ["python", "java", "javascript", "typescript", "c++", "c#", "php", "ruby", "go", "rust",
   "swift", "kotlin", "scala", "r", "matlab", "sql", "html", "css", "sass", "less",
   "react", "angular", "vue", "node.js", "express", "django", "flask", "spring", "laravel",
   "rails", "asp.net", ".net", "fastapi", "nextjs", "nuxt", "svelte", "jquery",
   "mysql", "postgresql", "mongodb", "redis", "sqlite", "oracle", "sql server", "elasticsearch",
   "firebase", "dynamodb", "cassandra", "neo4j",
   "aws", "azure", "gcp", "google cloud", "docker", "kubernetes", "jenkins", "gitlab ci",
   "github actions", "terraform", "ansible", "vagrant", "chef", "puppet",
   "machine learning", "deep learning", "artificial intelligence", "data science", "pandas",
   "numpy", "scikit-learn", "tensorflow", "pytorch", "keras", "opencv", "nltk", "spacy",
   "git", "linux", "unix", "windows", "macos", "bash", "powershell", "rest api", "graphql",
   "microservices", "agile", "scrum", "kanban", "jira", "confluence", "slack", "teams"]

/-- `self.education_keywords` (declared by the constructor; unused by the
extraction functions). -/
def educationKeywords : List String :=
  ["bachelor", "master", "phd", "doctorate", "diploma", "certificate", "degree",
   "b.tech", "m.tech", "b.sc", "m.sc", "b.com", "m.com", "bca", "mca", "mba",
   "computer science", "information technology", "software engineering", "data science",
   "electrical engineering", "mechanical engineering", "civil engineering"]

/-- `self.experience_keywords`. -/
def experienceKeywords : List String :=
  ["intern", "junior", "senior", "lead", "principal", "architect", "manager", "director",
   "ceo", "cto", "vp", "head", "specialist", "consultant", "analyst", "developer",
   "engineer", "programmer", "designer", "administrator"]

/-! ### `_extract_skills` and `_categorize_skill` -/

structure SkillEntry where
  skill : String
  mentions : Nat
  category : String
  deriving DecidableEq

/-- `ResumeParser._categorize_skill`. -/
def categorizeSkill (skill : String) : String :=
  let sl := String.mk (lowerL skill.data)
  if sl ∈ ["python", "java", "javascript", "c++", "php", "ruby"] then "programming_language"
  else if sl ∈ ["react", "angular", "django", "flask", "spring"] then "framework"
  else if sl ∈ ["mysql", "mongodb", "postgresql", "redis"] then "database"
  else if sl ∈ ["aws", "azure", "gcp", "docker", "kubernetes"] then "cloud_devops"
  else "other"

/-- The `found_skills` list of `_extract_skills`, before sorting: one entry
per keyword that occurs (case-insensitively) as a substring of the text, in
keyword-list order. -/
def foundSkills (text : String) : List SkillEntry :=
  let textLower := lowerL text.data
  (skillsKeywords.filter (fun kw => hasSubstr (lowerL kw.data) textLower)).map
    (fun kw =>
      { skill := String.mk (pyTitle kw.data)
        mentions := occCount (lowerL kw.data) textLower
        category := categorizeSkill kw })

/-- Comparison used by `found_skills.sort(key=lambda x: x["mentions"],
reverse=True)`: Python's sort is stable, and with `reverse=True` it orders
by descending key while keeping the original order of equal keys; this is
exactly the stable `mergeSort` under the following total preorder. -/
def mentionsGe (a b : SkillEntry) : Bool := b.mentions ≤ a.mentions

/-- The `technical_skills` field: sorted descending by mentions, top 20. -/
def technicalSkills (text : String) : List SkillEntry :=
  ((foundSkills text).mergeSort mentionsGe).take 20

/-- The `total_skills_found` field. -/
def totalSkillsFound (text : String) : Nat := (foundSkills text).length

structure Skills where
  technicalSkills : List SkillEntry
  totalSkillsFound : Nat
  deriving DecidableEq

/-- `ResumeParser._extract_skills`. -/
def extractSkills (text : String) : Skills :=
  { technicalSkills := technicalSkills text
    totalSkillsFound := totalSkillsFound text }


/-! ### `_extract_education` -/

structure DegreeEntry where
  degree : String
  fieldOfStudy : String
  entryType : String
  deriving DecidableEq

/-- Match a fixed pattern word (given in lowercase; `.` stands for the
escaped literal dot) case-insensitively at the start of `l`, returning the
consumed input characters and the remainder. -/
def ciMatchKw : List Char → List Char → Option (List Char × List Char)
  | [], l => some ([], l)
  | _ :: _, [] => none
  | k :: ks, c :: cs =>
    if k = c.toLower then
      match ciMatchKw ks cs with
      | some (consumed, rest) => some (c :: consumed, rest)
      | none => none
    else none

/-- The degree alternation of
`(bachelor|master|phd|doctorate|diploma|b\.tech|m\.tech|b\.sc|m\.sc|mba|bca|mca)`,
in source order. -/
def degreeAlts : List (List Char) :=
  ["bachelor".data, "master".data, "phd".data, "doctorate".data, "diploma".data,
   "b.tech".data, "m.tech".data, "b.sc".data, "m.sc".data,
   "mba".data, "bca".data, "mca".data]

/-- First alternative of the alternation matching at the start of `l` (the
alternatives are pairwise exclusive at any position, so order is moot). -/
def ciMatchAlts : List (List Char) → List Char → Option (List Char × List Char)
  | [], _ => none
  | a :: rest, l =>
    match ciMatchKw a l with
    | some r => some r
    | none => ciMatchAlts rest l

def isWordOrWs (c : Char) : Bool := isWordChar c || pyIsSpace c

/-- Models `\s+([\w\s]+)` with its backtracking: the greedy `\s+` takes the
maximal whitespace run; if no `[\w\s]` character follows, it gives back its
last character to the capture group (possible only when the run has at
least two characters). -/
def fieldCapture (l : List Char) : Option (List Char × List Char) :=
  let ws := l.takeWhile pyIsSpace
  let rest := l.dropWhile pyIsSpace
  if ws.isEmpty then none
  else
    let cap := rest.takeWhile isWordOrWs
    if !cap.isEmpty then some (cap, rest.drop cap.length)
    else if 2 ≤ ws.length then some ([ws.getLastD ' '], rest)
    else none

/-- `(?:in|of)` followed by `\s+([\w\s]+)`.  The two alternatives differ in
their first character, so at most one can apply. -/
def inOfMatch : List Char → Option (List Char × List Char)
  | a :: b :: rest =>
    if (a.toLower = 'i' && b.toLower = 'n') || (a.toLower = 'o' && b.toLower = 'f') then
      fieldCapture rest
    else none
  | _ => none

/-- The lazy `.*?` before `(?:in|of)`: try the continuation at each
position, moving right one character at a time; `.` does not match a
newline, so the search stops at one. -/
def lazyInOf : List Char → Option (List Char × List Char)
  | [] => none
  | c :: cs =>
    match inOfMatch (c :: cs) with
    | some r => some r
    | none => if c = '\n' then none else lazyInOf cs

/-- One attempted match of the degree pattern at the start of `l`,
returning (degree capture, field capture) and the remaining input. -/
def tryDegreeAt (l : List Char) : Option ((List Char × List Char) × List Char) :=
  match ciMatchAlts degreeAlts l with
  | none => none
  | some (deg, after) =>
    match lazyInOf after with
    | some (cap, rest) => some ((deg, cap), rest)
    | none => none

/-- `re.findall` scan for the degree pattern: non-overlapping matches left
to right.  Fuel is the input length; every match consumes at least one
character. -/
def degreeScanGo : Nat → List Char → List (List Char × List Char)
  | 0, _ => []
  | _ + 1, [] => []
  | fuel + 1, c :: cs =>
    match tryDegreeAt (c :: cs) with
    | some (p, rest) => p :: degreeScanGo fuel rest
    | none => degreeScanGo fuel cs

def degreeMatches (l : List Char) : List (List Char × List Char) :=
  degreeScanGo l.length l

/-- Is there a word boundary (`\b`) between `prev` and a following word
character? -/
def boundaryBefore : Option Char → Bool
  | none => true
  | some c => !isWordChar c

/-- Is there a word boundary after a word character, given the rest of the
input? -/
def boundaryAfterNonWord : List Char → Bool
  | [] => true
  | d :: _ => !isWordChar d

/-- `re.findall(r'\b(19|20)\d{2}\b', text)` — the pattern has a single
capture group around the century prefix, so `findall` returns the list of
captured two-character prefixes, not the full four-digit tokens.  `prev` is
the character before the current position (for the left `\b`). -/
def yearScan (prev : Option Char) : List Char → List String
  | c1 :: c2 :: c3 :: c4 :: rest =>
    if boundaryBefore prev && ((c1 = '1' && c2 = '9') || (c1 = '2' && c2 = '0')) &&
       c3.isDigit && c4.isDigit && boundaryAfterNonWord rest then
      String.mk [c1, c2] :: yearScan (some c4) rest
    else yearScan (some c1) (c2 :: c3 :: c4 :: rest)
  | _ => []

/-- The `years` list of `_extract_education`. -/
def yearMatches (text : String) : List String := yearScan none text.data

/-- The `graduation_years` field: `list(set(years))`. -/
def extractGradYears (text : String) : List String := pySetList (yearMatches text)

def universityKeywords : List String := ["university", "college", "institute", "school"]

/-- `any(keyword in line.lower() for keyword in kws)`. -/
def lineHasAnyKw (kws : List String) (line : List Char) : Bool :=
  kws.any (fun kw => hasSubstr kw.data (lowerL line))

/-- `re.sub(r'\d{4}', '', line)`: delete non-overlapping runs of exactly
four digits, scanning from the left. -/
def stripD4 : List Char → List Char
  | a :: b :: c :: d :: rest =>
    if a.isDigit && b.isDigit && c.isDigit && d.isDigit then stripD4 rest
    else a :: stripD4 (b :: c :: d :: rest)
  | l => l

/-- The `universities[:3]` computation of `_extract_education`. -/
def institutionsOf (lines : List (List Char)) : List (List Char) :=
  (((lines.filter (lineHasAnyKw universityKeywords)).map
      (fun l => pyStrip (stripD4 l))).filter (fun l => 5 < l.length)).take 3

structure Education where
  degrees : List DegreeEntry
  institutions : List String
  graduationYears : List String
  deriving DecidableEq

/-- `ResumeParser._extract_education`. -/
def extractEducation (text : String) : Education :=
  { degrees := (degreeMatches text.data).map (fun p =>
      { degree := String.mk (pyTitle p.1)
        fieldOfStudy := String.mk (pyTitle (pyStrip p.2))
        entryType := "degree" })
    institutions := (institutionsOf (pySplitNl text.data)).map String.mk
    graduationYears := extractGradYears text }

/-! ### `_extract_experience` and `_determine_experience_level` -/

/-- Python `int` of a digit string. -/
def digitsToNat (l : List Char) : Nat :=
  l.foldl (fun n c => 10 * n + (c.toNat - 48)) 0

/-- `s?` after `year`/`yr` (greedy; if taking the `s` fails the overall
match, not taking it fails as well, so greedy is exact here). -/
def consumeOptS : List Char → List Char
  | [] => []
  | c :: cs => if c.toLower = 's' then cs else c :: cs

/-- `(years?|yrs?)`, case-insensitive, at the start of `l`. -/
def ciTokenYears (l : List Char) : Option (List Char) :=
  match ciMatchKw "year".data l with
  | some (_, rest) => some (consumeOptS rest)
  | none =>
    match ciMatchKw "yr".data l with
    | some (_, rest) => some (consumeOptS rest)
    | none => none

/-- One attempted match of `(\d+)\+?\s*(years?|yrs?)\s*of\s*experience`
(IGNORECASE) at the start of `l`, returning the captured number and the
remaining input.  All greedy sub-matches here are exact: no following
pattern element can match a character these classes give back. -/
def matchExpAt (l : List Char) : Option (Nat × List Char) :=
  let digits := l.takeWhile Char.isDigit
  if digits.isEmpty then none
  else
    let r1 := l.dropWhile Char.isDigit
    let r2 := match r1 with
      | '+' :: rest => rest
      | _ => r1
    let r3 := r2.dropWhile pyIsSpace
    match ciTokenYears r3 with
    | none => none
    | some r5 =>
      let r6 := r5.dropWhile pyIsSpace
      match ciMatchKw "of".data r6 with
      | none => none
      | some (_, r7) =>
        let r8 := r7.dropWhile pyIsSpace
        match ciMatchKw "experience".data r8 with
        | none => none
        | some (_, r9) => some (digitsToNat digits, r9)

/-- `re.findall` scan for the years-of-experience pattern. -/
def expScanGo : Nat → List Char → List Nat
  | 0, _ => []
  | _ + 1, [] => []
  | fuel + 1, c :: cs =>
    match matchExpAt (c :: cs) with
    | some (n, rest) => n :: expScanGo fuel rest
    | none => expScanGo fuel cs

/-- The numbers captured by the `exp_pattern` matches, in match order. -/
def expMatches (text : String) : List Nat :=
  expScanGo text.data.length text.data

/-- `total_experience`: `max(years)` over the matches, `None` if none. -/
def extractTotalYears (text : String) : Option Nat :=
  match expMatches text with
  | [] => none
  | n :: ns => some (ns.foldl Nat.max n)

/-- The job-title pattern of `_extract_experience` is built as a plain
(non-raw) f-string, `f'\b{keyword}\s+(\w+\s*)*(?:engineer|...)'`.  In a
non-raw Python string literal `'\b'` denotes the backspace character
U+0008 (while `'\s'` and `'\w'` are not recognized escapes and reach the
regex engine as backslash sequences), so the compiled pattern requires a
literal backspace character immediately before the keyword. -/
def backspaceChar : Char := Char.ofNat 8

def roleWords : List String :=
  ["engineer", "developer", "manager", "analyst", "designer", "specialist"]

/-- `(?:engineer|developer|manager|analyst|designer|specialist)`,
case-insensitive, at the start of `l`. -/
def roleMatch (l : List Char) : Option (List Char) :=
  match roleWords.findSome? (fun w => ciMatchKw w.data l) with
  | some (_, rest) => some rest
  | none => none

/-- Can `seg` be consumed by one `\w+\s*` iteration (one or more word
characters followed by optional whitespace)? -/
def validWordWs (seg : List Char) : Bool :=
  !seg.isEmpty && !(seg.takeWhile isWordChar).isEmpty &&
  (seg.dropWhile isWordChar).all pyIsSpace

/-- All decompositions of a prefix of `l` as one `\w+\s*` iteration,
longest first (the engine's greedy preference). -/
def wordWsTakes (l : List Char) : List (List Char × List Char) :=
  ((List.range l.length).reverse.map (fun k => k + 1)).filterMap
    (fun k =>
      let seg := l.take k
      if validWordWs seg then some (seg, l.drop k) else none)

/-- `(\w+\s*)*(?:engineer|...)` with backtracking: the greedy star prefers
one more iteration; `cap` is the text of the last completed iteration (the
value `findall` reports for the group; the empty string when the star never
iterates).  Fuel bounds the nesting depth; each iteration consumes at least
one character, so `l.length + 1` suffices. -/
def starRoleGo : Nat → List Char → List Char → Option (List Char × List Char)
  | 0, _, _ => none
  | fuel + 1, cap, l =>
    match (wordWsTakes l).findSome? (fun p => starRoleGo fuel p.1 p.2) with
    | some r => some r
    | none => (roleMatch l).map (fun rest => (cap, rest))

/-- One attempted match of the (backspace-prefixed) job-title pattern at
the start of `l`, returning the group capture and the remaining input. -/
def jobMatchAt (kw : List Char) (l : List Char) : Option (List Char × List Char) :=
  match l with
  | [] => none
  | c :: cs =>
    if c = backspaceChar then
      match ciMatchKw kw cs with
      | none => none
      | some (_, r1) =>
        if (r1.takeWhile pyIsSpace).isEmpty then none
        else starRoleGo (r1.length + 1) [] (r1.dropWhile pyIsSpace)
    else none

/-- `re.findall` scan for the job-title pattern of one keyword. -/
def jobScanGo (kw : List Char) : Nat → List Char → List (List Char)
  | 0, _ => []
  | _ + 1, [] => []
  | fuel + 1, c :: cs =>
    match jobMatchAt kw (c :: cs) with
    | some (cap, rest) => cap :: jobScanGo kw fuel rest
    | none => jobScanGo kw fuel cs

def jobMatchesFor (kw : String) (text : String) : List (List Char) :=
  jobScanGo kw.data text.data.length text.data

/-- The `job_titles` computation: for every experience keyword, every
match contributes `(keyword + ' ' + ''.join(match).strip()).title()`;
then `list(set(job_titles))[:5]`. -/
def extractJobTitles (text : String) : List String :=
  (pySetList ((experienceKeywords.map (fun kw =>
    (jobMatchesFor kw text).map (fun cap =>
      String.mk (pyTitle (kw.data ++ ' ' :: pyStrip cap))))).flatten)).take 5

/-- The character class `[\w\s&.,]` of the company pattern. -/
def companyClassChar (c : Char) : Bool :=
  isWordChar c || pyIsSpace c || c = '&' || c = '.' || c = ','

/-- One attempted match of
`\bat\s+([A-Z][\w\s&.,]+(?:Inc|LLC|Corp|Ltd|Company|Co\.)?)` (no
IGNORECASE) at the start of `l`, the left boundary already checked.  The
optional corporate-suffix group always matches empty because the greedy
class has already consumed any suffix text. -/
def companyMatchAt (l : List Char) : Option (List Char × List Char) :=
  match l with
  | 'a' :: 't' :: rest =>
    if (rest.takeWhile pyIsSpace).isEmpty then none
    else
      match rest.dropWhile pyIsSpace with
      | c :: cs =>
        if c.isUpper then
          let run := cs.takeWhile companyClassChar
          if run.isEmpty then none
          else some (c :: run, cs.drop run.length)
        else none
      | [] => none
  | _ => none

/-- `re.findall` scan for the company pattern; `prev` is the character
before the current position (for `\b`). -/
def companyScanGo : Nat → Option Char → List Char → List (List Char)
  | 0, _, _ => []
  | _ + 1, _, [] => []
  | fuel + 1, prev, c :: cs =>
    match (if boundaryBefore prev then companyMatchAt (c :: cs) else none) with
    | some (cap, rest) => cap :: companyScanGo fuel (some (cap.getLastD 'A')) rest
    | none => companyScanGo fuel (some c) cs

/-- The `companies` computation: `list(set(companies))[:5]`. -/
def extractCompanies (text : String) : List String :=
  ((pySetList (companyScanGo text.data.length none text.data)).take 5).map String.mk

/-- `ResumeParser._determine_experience_level`. -/
def determineExperienceLevel : Option Int → String
  | none => "unknown"
  | some years =>
    if years < 2 then "entry_level"
    else if years < 5 then "junior"
    else if years < 10 then "mid_level"
    else "senior"

structure Experience where
  totalYearsExperience : Option Nat
  jobTitles : List String
  companies : List String
  experienceLevel : String
  deriving DecidableEq

/-- `ResumeParser._extract_experience`. -/
def extractExperience (text : String) : Experience :=
  { totalYearsExperience := extractTotalYears text
    jobTitles := extractJobTitles text
    companies := extractCompanies text
    experienceLevel :=
      determineExperienceLevel ((extractTotalYears text).map Int.ofNat) }

/-! ### `_extract_summary` -/

def summaryKeywords : List String := ["summary", "objective", "profile", "about"]

/-- The scan loop of `_extract_summary`: at the first line containing a
summary keyword, take the next three lines, join with newlines, strip. -/
def summaryGo : List (List Char) → Option (List Char)
  | [] => none
  | line :: rest =>
    if lineHasAnyKw summaryKeywords line then
      some (pyStrip (List.intercalate ['\n'] (rest.take 3)))
    else summaryGo rest

structure Summary where
  summary : Option String
  source : String
  deriving DecidableEq

/-- `ResumeParser._extract_summary`.  The source tag is computed by
`"extracted" if summary_text else "not_found"`, and Python's truthiness
makes the empty string fall to `"not_found"` just like `None`. -/
def extractSummary (text : String) : Summary :=
  match summaryGo (pySplitNl text.data) with
  | some s => { summary := some (String.mk s)
                source := if s.isEmpty then "not_found" else "extracted" }
  | none => { summary := none, source := "not_found" }

/-! ### `_extract_personal_info` (heuristic path, `self.nlp = None`) -/

def nameSkipKeywords : List String := ["email", "phone", "address", "linkedin"]

/-- `word.replace('.', '').isalpha()` (Python's `isalpha` is false on the
empty string). -/
def isAlphaTokenNoDots (w : List Char) : Bool :=
  let v := w.filter (fun c => c ≠ '.')
  !v.isEmpty && v.all Char.isAlpha

/-- `word[0].isupper()` (words produced by `split()` are nonempty). -/
def tokenHeadUpper : List Char → Bool
  | [] => false
  | c :: _ => c.isUpper

/-- The acceptance test applied to a stripped candidate line. -/
def nameLineOk (line : List Char) : Bool :=
  let words := pySplitWs line
  !line.isEmpty && !lineHasAnyKw nameSkipKeywords line &&
  (2 ≤ words.length && words.length ≤ 4) &&
  words.all isAlphaTokenNoDots && words.any tokenHeadUpper

/-- The name-search loop of `_extract_personal_info`: strip each line,
stop at the first accepted one. -/
def findNameLoop : List (List Char) → Option (List Char)
  | [] => none
  | line :: rest =>
    let s := pyStrip line
    if nameLineOk s then some s else findNameLoop rest

/-- The extracted name: scan the first five lines.  (The spaCy fallback is
absent: this models the configuration `self.nlp = None`.) -/
def extractName (text : String) : Option String :=
  (findNameLoop ((pySplitNl text.data).take 5)).map String.mk

structure PersonalInfo where
  name : Option String
  extractedFrom : String
  deriving DecidableEq

/-- `ResumeParser._extract_personal_info` (with `self.nlp = None`). -/
def extractPersonalInfo (text : String) : PersonalInfo :=
  { name := extractName text, extractedFrom := "text_analysis" }

/-! ### `_parse_text` and `parse_resume_file` -/

/-- Error kinds of the Text Extractor (§7 of the specification):
`ValueError("Unsupported file type: ...")`, `ImportError` for a missing
decoder, and wrapped decode failures. -/
inductive ParseError where
  | unsupportedFormat (contentType : String)
  | decoderUnavailable (message : String)
  | extractionFailed (message : String)
  deriving DecidableEq

/-- `text[:1000] + "..." if len(text) > 1000 else text` (applied to the
original, pre-normalization text). -/
def rawTextPreview (text : String) : String :=
  if 1000 < text.data.length then String.mk (text.data.take 1000) ++ "..." else text

/-- The structured record assembled by `_parse_text`.  The source record
also carries a `contact_info` field (`_extract_contact_info`); it is not
modelled here because no property below concerns it. -/
structure ParsedResume where
  personalInfo : PersonalInfo
  skills : Skills
  education : Education
  experience : Experience
  summary : Summary
  rawText : String
  deriving DecidableEq

/-- `ResumeParser._parse_text`. -/
def parseText (text : String) : ParsedResume :=
  let cleaned := cleanText text
  { personalInfo := extractPersonalInfo cleaned
    skills := extractSkills cleaned
    education := extractEducation cleaned
    experience := extractExperience cleaned
    summary := extractSummary cleaned
    rawText := rawTextPreview text }

structure FileInput where
  filename : String
  contentType : String

def supportedDocxTypes : List String :=
  ["application/vnd.openxmlformats-officedocument.wordprocessingml.document",
   "application/msword"]

structure Metadata where
  filename : String
  fileType : String
  parsedAt : String
  textLength : Nat
  parserVersion : String
  deriving DecidableEq

/-- The MIME-type dispatch at the top of `parse_resume_file`.  The two
decoders are passed as the outcomes their coroutines would produce, so the
theorem below can quantify over every decoder behaviour. -/
def extractText (file : FileInput)
    (pdfResult docxResult : Except ParseError String) : Except ParseError String :=
  if file.contentType = "application/pdf" then pdfResult
  else if file.contentType ∈ supportedDocxTypes then docxResult
  else .error (.unsupportedFormat file.contentType)

/-- `ResumeParser.parse_resume_file`: dispatch, parse, attach metadata.
The surrounding `except Exception as e: logger.error(...); raise` re-raises
every failure unchanged, which the error branch models. -/
def parseResumeFile (file : FileInput) (parsedAt : String)
    (pdfResult docxResult : Except ParseError String) :
    Except ParseError (ParsedResume × Metadata) :=
  match extractText file pdfResult docxResult with
  | .error e => .error e
  | .ok text =>
    .ok (parseText text,
      { filename := file.filename
        fileType := file.contentType
        parsedAt := parsedAt
        textLength := text.data.length
        parserVersion := "1.0.0" })

/-! ### Specification-side characterizations (for refinement statements) -/

/-- The candidate-acceptance rule as the specification words it (§4.3):
the line splits into 2–4 whitespace-separated tokens, every token with its
periods stripped is alphabetic, at least one token starts uppercase, and
the line contains none of the skip keywords.  (The code's extra
`len(line) > 0` test is implied by the token-count requirement.) -/
def specNameAccept (line : List Char) : Bool :=
  !lineHasAnyKw nameSkipKeywords line &&
  (2 ≤ (pySplitWs line).length && (pySplitWs line).length ≤ 4) &&
  (pySplitWs line).all isAlphaTokenNoDots && (pySplitWs line).any tokenHeadUpper

/-- Index of the first line containing a summary keyword (specification
view of the summary scan). -/
def kwLineIdx : List (List Char) → Option Nat
  | [] => none
  | l :: rest =>
    if lineHasAnyKw summaryKeywords l then some 0
    else (kwLineIdx rest).map (· + 1)

/-- The summary extractor as the (amended) specification describes it:
on the first keyword line, the next three lines joined with newlines and
trimmed, tagged "extracted" when that trimmed text is nonempty and
"not_found" when it is empty; with no keyword line, a null summary tagged
"not_found". -/
def specSummary (text : String) : Summary :=
  let lines := pySplitNl text.data
  match kwLineIdx lines with
  | some i =>
    let s := pyStrip (List.intercalate ['\n'] ((lines.drop (i + 1)).take 3))
    { summary := some (String.mk s)
      source := if s.isEmpty then "not_found" else "extracted" }
  | none => { summary := none, source := "not_found" }

/-! ### Theorems: text normalizer -/

theorem pyIsSpace_space : pyIsSpace ' ' = true := rfl

theorem pyIsSpace_nl : pyIsSpace '\n' = true := rfl

theorem collapseGo_good (l : List Char) : ∀ b : Bool,
    (∀ c ∈ collapseGo pyIsSpace ' ' b l, pyIsSpace c = true → c = ' ') ∧
    (collapseGo pyIsSpace ' ' b l).Chain' NoWsPair ∧
    (b = true → ∀ c cs, collapseGo pyIsSpace ' ' b l = c :: cs →
      pyIsSpace c = false) := by
  induction l with
  | nil => intro b; refine ⟨by simp [collapseGo], by simp [collapseGo], ?_⟩
           intro _ c cs h; simp [collapseGo] at h
  | cons c cs ih =>
    intro b
    by_cases hc : pyIsSpace c = true
    · cases b with
      | true =>
        simp only [collapseGo, hc, if_pos, if_true]
        exact ⟨(ih true).1, (ih true).2.1, fun _ => (ih true).2.2 rfl⟩
      | false =>
        simp only [collapseGo, hc, if_pos, Bool.false_eq_true, if_false]
        refine ⟨?_, ?_, by simp⟩
        · intro d hd _
          rcases List.mem_cons.mp hd with rfl | hd'
          · rfl
          · exact (ih true).1 d hd' (by assumption)
        · rw [List.chain'_cons']
          refine ⟨?_, (ih true).2.1⟩
          intro d hd
          cases hout : collapseGo pyIsSpace ' ' true cs with
          | nil => rw [hout] at hd; simp at hd
          | cons e es =>
            rw [hout] at hd; simp at hd
            have hws := (ih true).2.2 rfl e es hout
            intro hpair
            rw [hd] at hws
            simp [hws] at hpair
    · simp only [collapseGo, hc, Bool.false_eq_true, if_false]
      refine ⟨?_, ?_, ?_⟩
      · intro d hd hws
        rcases List.mem_cons.mp hd with rfl | hd'
        · exact absurd hws (by simp [hc])
        · exact (ih false).1 d hd' hws
      · rw [List.chain'_cons']
        refine ⟨?_, (ih false).2.1⟩
        intro d _ hpair
        simp [hc] at hpair
      · intro _ d ds h
        cases h
        simpa using hc

theorem collapseGo_id_of_good (l : List Char) (hg : GoodWs l) :
    collapseGo pyIsSpace ' ' false l = l ∧
    ((∀ c cs, l = c :: cs → pyIsSpace c = false) →
      collapseGo pyIsSpace ' ' true l = l) := by
  induction l with
  | nil => exact ⟨rfl, fun _ => rfl⟩
  | cons c cs ih =>
    obtain ⟨hall, hchain⟩ := hg
    have htail : GoodWs cs :=
      ⟨fun d hd => hall d (List.mem_cons_of_mem _ hd), hchain.tail⟩
    have ih' := ih htail
    have hhead := (List.chain'_cons'.mp hchain).1
    constructor
    · by_cases hc : pyIsSpace c = true
      · have hsp : c = ' ' := hall c (List.mem_cons_self _ _) hc
        have hcs : collapseGo pyIsSpace ' ' true cs = cs := by
          apply ih'.2
          intro d ds hds
          have := hhead d (by simp [hds])
          rw [hds] at *
          by_contra hws
          exact this ⟨hc, by simpa using hws⟩
        subst hsp
        simp [collapseGo, pyIsSpace_space, hcs]
      · simp [collapseGo, hc, ih'.1]
    · intro hne
      have hc : pyIsSpace c = false := hne c cs rfl
      simp [collapseGo, hc, ih'.1]

theorem collapseGo_isNl_id (l : List Char) (h : ∀ c ∈ l, c ≠ '\n') :
    ∀ b, collapseGo isNl '\n' b l = l := by
  induction l with
  | nil => intro b; rfl
  | cons c cs ih =>
    intro b
    have hc : isNl c = false := by
      simp [isNl]; exact h c (List.mem_cons_self _ _)
    simp [collapseGo, hc, ih (fun d hd => h d (List.mem_cons_of_mem _ hd))]

theorem goodWs_dropWhile {l : List Char} (hg : GoodWs l) :
    GoodWs (l.dropWhile pyIsSpace) :=
  ⟨fun c hc => hg.1 c (List.dropWhile_subset _ hc),
   hg.2.suffix (List.dropWhile_suffix _)⟩

theorem noWsPair_flip : ∀ a b, NoWsPair a b → flip NoWsPair a b := by
  intro a b h ⟨h1, h2⟩
  exact h ⟨h2, h1⟩

theorem goodWs_reverse {l : List Char} (hg : GoodWs l) : GoodWs l.reverse := by
  refine ⟨fun c hc => hg.1 c (List.mem_reverse.mp hc), ?_⟩
  rw [List.chain'_reverse]
  exact hg.2.imp noWsPair_flip

theorem goodWs_rstripWs {l : List Char} (hg : GoodWs l) : GoodWs (rstripWs l) :=
  goodWs_reverse (goodWs_dropWhile (goodWs_reverse hg))

theorem mem_rstripWs {l : List Char} {c : Char} (h : c ∈ rstripWs l) : c ∈ l := by
  rw [rstripWs, List.mem_reverse] at h
  exact List.mem_reverse.mp (List.dropWhile_subset _ h)

/-- The head of `dropWhile p l` never satisfies `p`. -/
theorem head_dropWhile_false (p : Char → Bool) (l : List Char) :
    ∀ c cs, l.dropWhile p = c :: cs → p c = false := by
  induction l with
  | nil => intro c cs h; simp [List.dropWhile] at h
  | cons d ds ih =>
    intro c cs h
    by_cases hd : p d = true
    · rw [List.dropWhile_cons_of_pos hd] at h
      exact ih c cs h
    · rw [List.dropWhile_cons_of_neg (by simp [hd])] at h
      cases h
      simpa using hd

/-- `rstripWs l` is an initial segment of `l`. -/
theorem rstripWs_append (l : List Char) : ∃ t, l = rstripWs l ++ t := by
  obtain ⟨s, hs⟩ := List.dropWhile_suffix (l := l.reverse) pyIsSpace
  refine ⟨s.reverse, ?_⟩
  have := congrArg List.reverse hs
  simpa [rstripWs] using this.symm

theorem head_rstripWs {l : List Char} {c : Char} {cs : List Char}
    (h : rstripWs l = c :: cs) : ∃ ds, l = c :: ds := by
  obtain ⟨t, ht⟩ := rstripWs_append l
  rw [h] at ht
  exact ⟨cs ++ t, by simpa using ht⟩

theorem getLast?_rstripWs (l : List Char) :
    ∀ c, (rstripWs l).getLast? = some c → pyIsSpace c = false := by
  intro c hc
  rw [rstripWs, List.getLast?_reverse] at hc
  cases hd : l.reverse.dropWhile pyIsSpace with
  | nil => rw [hd] at hc; simp at hc
  | cons e es =>
    rw [hd] at hc
    simp at hc
    rw [hc] at hd
    exact head_dropWhile_false pyIsSpace l.reverse c es hd

theorem rstripWs_id (l : List Char)
    (h : ∀ c, l.getLast? = some c → pyIsSpace c = false) : rstripWs l = l := by
  rw [rstripWs]
  cases hd : l.reverse with
  | nil => simpa using congrArg List.reverse hd
  | cons e es =>
    have he : pyIsSpace e = false := by
      apply h
      rw [← List.head?_reverse, hd]; rfl
    rw [List.dropWhile_cons_of_neg (by simp [he]), ← hd, List.reverse_reverse]

theorem dropWhile_id_of_head (l : List Char) (p : Char → Bool)
    (h : ∀ c cs, l = c :: cs → p c = false) : l.dropWhile p = l := by
  cases l with
  | nil => rfl
  | cons c cs => rw [List.dropWhile_cons_of_neg (by simp [h c cs rfl])]

/-- Structural facts about `cleanList` output packaged together: it is
whitespace-collapsed, starts and ends with non-whitespace, and the inner
newline-collapsing pass is the identity. -/
theorem cleanList_shape (l : List Char) :
    GoodWs (cleanList l) ∧
    (∀ c cs, cleanList l = c :: cs → pyIsSpace c = false) ∧
    (∀ c, (cleanList l).getLast? = some c → pyIsSpace c = false) := by
  have h1 := collapseGo_good l false
  set w := collapseGo pyIsSpace ' ' false l with hw
  have hgw : GoodWs w := ⟨h1.1, h1.2.1⟩
  have hnonl : ∀ d ∈ w, d ≠ '\n' := by
    intro d hd hdn
    have := hgw.1 d hd (by simp [hdn, pyIsSpace])
    simp [hdn] at this
  have h2 : collapseGo isNl '\n' false w = w := collapseGo_isNl_id w hnonl false
  have hcl : cleanList l = pyStrip w := by
    rw [cleanList, ← hw, h2]
  refine ⟨?_, ?_, ?_⟩
  · rw [hcl]; exact goodWs_rstripWs (goodWs_dropWhile hgw)
  · intro c cs hcs
    rw [hcl] at hcs
    obtain ⟨ds, hds⟩ := head_rstripWs hcs
    exact head_dropWhile_false pyIsSpace w c ds hds
  · intro c hc
    rw [hcl] at hc
    exact getLast?_rstripWs (lstripWs w) c hc

theorem mem_cleanList_of_ws {l : List Char} {c : Char}
    (hc : c ∈ cleanList l) (hws : pyIsSpace c = true) : c = ' ' :=
  (cleanList_shape l).1.1 c hc hws

theorem cleanList_idem (l : List Char) : cleanList (cleanList l) = cleanList l := by
  obtain ⟨hg, hhead, hlast⟩ := cleanList_shape l
  set t := cleanList l with ht
  have hco : collapseGo pyIsSpace ' ' false t = t := (collapseGo_id_of_good t hg).1
  have hnonl : ∀ d ∈ t, d ≠ '\n' := by
    intro d hd hdn
    have := hg.1 d hd (by simp [hdn, pyIsSpace])
    simp [hdn] at this
  show cleanList t = t
  rw [cleanList, hco, collapseGo_isNl_id t hnonl false, pyStrip, lstripWs,
      dropWhile_id_of_head t pyIsSpace hhead, rstripWs_id t hlast]

theorem no_newline_cleanList (l : List Char) : '\n' ∉ cleanList l := by
  intro h
  have := mem_cleanList_of_ws h (by simp [pyIsSpace])
  simp at this

/-! ### Theorems: deduplication -/

theorem mem_dedupGo {α : Type} [DecidableEq α] (l : List α) :
    ∀ seen x, x ∈ dedupGo seen l ↔ x ∈ l ∧ x ∉ seen := by
  induction l with
  | nil => intro seen x; simp [dedupGo]
  | cons y ys ih =>
    intro seen x
    by_cases hy : y ∈ seen
    · simp only [dedupGo, if_pos hy, ih]
      constructor
      · rintro ⟨h1, h2⟩; exact ⟨List.mem_cons_of_mem _ h1, h2⟩
      · rintro ⟨h1, h2⟩
        rcases List.mem_cons.mp h1 with rfl | h1'
        · exact absurd hy h2
        · exact ⟨h1', h2⟩
    · simp only [dedupGo, if_neg hy]
      constructor
      · intro h
        rcases List.mem_cons.mp h with rfl | h'
        · exact ⟨List.mem_cons_self _ _, hy⟩
        · have := (ih (y :: seen) x).mp h'
          exact ⟨List.mem_cons_of_mem _ this.1,
                 fun hx => this.2 (List.mem_cons_of_mem _ hx)⟩
      · rintro ⟨h1, h2⟩
        rcases List.mem_cons.mp h1 with rfl | h1'
        · exact List.mem_cons_self _ _
        · by_cases hxy : x = y
          · subst hxy; exact List.mem_cons_self _ _
          · exact List.mem_cons_of_mem _ ((ih (y :: seen) x).mpr
              ⟨h1', fun hx => by
                rcases List.mem_cons.mp hx with h | h
                · exact hxy h
                · exact h2 h⟩)

theorem nodup_dedupGo {α : Type} [DecidableEq α] (l : List α) :
    ∀ seen, (dedupGo seen l).Nodup := by
  induction l with
  | nil => intro seen; simp [dedupGo]
  | cons y ys ih =>
    intro seen
    by_cases hy : y ∈ seen
    · simpa [dedupGo, hy] using ih seen
    · simp only [dedupGo, if_neg hy]
      refine List.nodup_cons.mpr ⟨?_, ih (y :: seen)⟩
      intro hmem
      exact ((mem_dedupGo ys (y :: seen) y).mp hmem).2 (List.mem_cons_self _ _)

theorem mem_pySetList {α : Type} [DecidableEq α] {l : List α} {x : α} :
    x ∈ pySetList l ↔ x ∈ l := by
  rw [pySetList, mem_dedupGo]; simp

theorem nodup_pySetList {α : Type} [DecidableEq α] (l : List α) :
    (pySetList l).Nodup := nodup_dedupGo l []

/-! ### Theorems: line splitting -/

theorem pySplitNl_no_nl (l : List Char) (h : '\n' ∉ l) : pySplitNl l = [l] := by
  induction l with
  | nil => rfl
  | cons c cs ih =>
    have hc : c ≠ '\n' := fun hcn => h (hcn ▸ List.mem_cons_self _ _)
    have := ih (fun hx => h (List.mem_cons_of_mem _ hx))
    simp [pySplitNl, hc, this]

/-! ### Theorems: skills sorting -/

theorem mentionsGe_trans (a b c : SkillEntry) :
    mentionsGe a b → mentionsGe b c → mentionsGe a c := by
  simp only [mentionsGe, decide_eq_true_eq]
  omega

theorem mentionsGe_total (a b : SkillEntry) : mentionsGe a b || mentionsGe b a := by
  simp only [mentionsGe, Bool.or_eq_true, decide_eq_true_eq]
  omega

theorem filter_mentions_mergeSort (l : List SkillEntry) (m : Nat) :
    (l.mergeSort mentionsGe).filter (fun e => e.mentions == m) =
      l.filter (fun e => e.mentions == m) := by
  have hperm : ((l.mergeSort mentionsGe).filter (fun e => e.mentions == m)).Perm
      (l.filter (fun e => e.mentions == m)) :=
    (List.mergeSort_perm l mentionsGe).filter _
  have hpw : (l.filter (fun e => e.mentions == m)).Pairwise
      (fun a b => mentionsGe a b) := by
    apply List.pairwise_of_forall_mem_list
    intro a ha b hb
    have ha' := (List.mem_filter.mp ha).2
    have hb' := (List.mem_filter.mp hb).2
    simp only [beq_iff_eq] at ha' hb'
    simp [mentionsGe, ha', hb']
  have hsub : List.Sublist (l.filter (fun e => e.mentions == m))
      (l.mergeSort mentionsGe) :=
    List.sublist_mergeSort mentionsGe_trans mentionsGe_total hpw (List.filter_sublist l)
  have hsub2 : List.Sublist (l.filter (fun e => e.mentions == m))
      ((l.mergeSort mentionsGe).filter (fun e => e.mentions == m)) := by
    have := hsub.filter (fun e => e.mentions == m)
    rwa [List.filter_eq_self.mpr (fun a ha => (List.mem_filter.mp ha).2)] at this
  exact (hsub2.eq_of_length hperm.length_eq.symm).symm

/-! ### Theorems: maximum folds -/

theorem foldl_max_le (xs : List Nat) :
    ∀ x, x ≤ xs.foldl Nat.max x ∧ ∀ n ∈ xs, n ≤ xs.foldl Nat.max x := by
  induction xs with
  | nil => intro x; exact ⟨Nat.le_refl _, by simp⟩
  | cons y ys ih =>
    intro x
    have h1 := (ih (Nat.max x y)).1
    constructor
    · exact Nat.le_trans (Nat.le_max_left x y) h1
    · intro n hn
      rcases List.mem_cons.mp hn with rfl | hn'
      · exact Nat.le_trans (Nat.le_max_right x n) h1
      · exact (ih (Nat.max x y)).2 n hn'

theorem foldl_max_mem (xs : List Nat) :
    ∀ x, xs.foldl Nat.max x = x ∨ xs.foldl Nat.max x ∈ xs := by
  induction xs with
  | nil => intro x; exact Or.inl rfl
  | cons y ys ih =>
    intro x
    rw [List.foldl_cons]
    rcases Nat.le_total x y with hxy | hxy
    · have hm : Nat.max x y = y := Nat.max_eq_right hxy
      rw [hm]
      rcases ih y with h | h
      · rw [h]
        exact Or.inr (List.mem_cons_self _ _)
      · exact Or.inr (List.mem_cons_of_mem _ h)
    · have hm : Nat.max x y = x := Nat.max_eq_left hxy
      rw [hm]
      rcases ih x with h | h
      · exact Or.inl h
      · exact Or.inr (List.mem_cons_of_mem _ h)

/-! ### Theorems: name extraction -/

theorem nameLineOk_eq_spec (line : List Char) :
    nameLineOk line = specNameAccept line := by
  cases line with
  | nil => decide
  | cons c cs => simp [nameLineOk, specNameAccept, Bool.and_assoc]

theorem findNameLoop_eq (lines : List (List Char)) :
    findNameLoop lines = (lines.map pyStrip).find? specNameAccept := by
  induction lines with
  | nil => rfl
  | cons l ls ih =>
    by_cases h : specNameAccept (pyStrip l) = true
    · rw [List.map_cons, List.find?_cons_of_pos _ h]
      simp [findNameLoop, nameLineOk_eq_spec, h]
    · rw [List.map_cons, List.find?_cons_of_neg _ (by simpa using h)]
      rw [← ih]
      simp [findNameLoop, nameLineOk_eq_spec, h]

/-! ### Theorems: summary extraction -/

theorem summaryGo_eq (lines : List (List Char)) :
    summaryGo lines = (kwLineIdx lines).map
      (fun i => pyStrip (List.intercalate ['\n'] ((lines.drop (i + 1)).take 3))) := by
  induction lines with
  | nil => rfl
  | cons l rest ih =>
    by_cases h : lineHasAnyKw summaryKeywords l = true
    · simp [summaryGo, kwLineIdx, h]
    · simp only [summaryGo, kwLineIdx, h, Bool.false_eq_true, if_false, ih,
        Option.map_map]
      cases hk : kwLineIdx rest with
      | none => rfl
      | some i =>
        simp [Function.comp, List.drop_succ_cons]

/-! ### Theorems: graduation-year scan -/

theorem yearScan_mem (prev : Option Char) (l : List Char) :
    ∀ e ∈ yearScan prev l, e = "19" ∨ e = "20" := by
  induction prev, l using yearScan.induct with
  | case1 prev c1 c2 c3 c4 rest hcond ih =>
    intro e he
    simp only [yearScan] at he
    rw [if_pos hcond] at he
    rcases List.mem_cons.mp he with rfl | he'
    · simp only [Bool.and_eq_true] at hcond
      rcases (Bool.or_eq_true _ _).mp hcond.1.1.1.2 with h12 | h12
      · simp only [Bool.and_eq_true, decide_eq_true_eq] at h12
        left; rw [h12.1, h12.2]
      · simp only [Bool.and_eq_true, decide_eq_true_eq] at h12
        right; rw [h12.1, h12.2]
    · exact ih e he'
  | case2 prev c1 c2 c3 c4 rest hcond ih =>
    intro e he
    simp only [yearScan] at he
    rw [if_neg hcond] at he
    exact ih e he
  | case3 t prev hshape =>
    intro e he
    match t, hshape with
    | [], _ => rw [yearScan.eq_def] at he; simp at he
    | [a], _ => rw [yearScan.eq_def] at he; simp at he
    | [a, b], _ => rw [yearScan.eq_def] at he; simp at he
    | [a, b, c], _ => rw [yearScan.eq_def] at he; simp at he
    | a :: b :: c :: d :: r, hs => exact (hs a b c d r rfl).elim

/-! ### Theorems: job-title scan -/

theorem jobScanGo_eq_nil (kw : List Char) :
    ∀ (fuel : Nat) (l : List Char), backspaceChar ∉ l → jobScanGo kw fuel l = [] := by
  intro fuel
  induction fuel with
  | zero => intro l _; rfl
  | succ fuel ih =>
    intro l hl
    cases l with
    | nil => rfl
    | cons c cs =>
      have hc : ¬(c = backspaceChar) := fun h => hl (h ▸ List.mem_cons_self _ _)
      have hmatch : jobMatchAt kw (c :: cs) = none := by
        simp [jobMatchAt, hc]
      simp [jobScanGo, hmatch, ih cs (fun h => hl (List.mem_cons_of_mem _ h))]

/-! ### Claim theorems -/

/-- C1 (corrected).  The year regex `\b(19|20)\d{2}\b` has its only
capture group around the century prefix, so `findall` collects the
captured `"19"`/`"20"` strings rather than the full four-digit tokens:
`graduation_years` is the deduplicated set of those two-character
prefixes.  Deduplication (set semantics) and the prefix-only content are
proved for every input text. -/
theorem educ_graduation_years_prefix_set (text : String) :
    (extractGradYears text).Nodup ∧
    (∀ e, e ∈ extractGradYears text ↔ e ∈ yearMatches text) ∧
    (∀ e ∈ yearMatches text, e = "19" ∨ e = "20") :=
  ⟨nodup_pySetList _, fun _ => mem_pySetList, fun e he => yearScan_mem none text.data e he⟩

/-- C1 counterexample: for the text `"2019"` the code's `graduation_years`
is `["20"]` — the century prefix as a string — and in particular the full
year token `"2019"` (and a fortiori the integer 2019) is not an element,
contradicting the claim that the set contains the full 4-digit year. -/
theorem educ_graduation_years_counterexample :
    extractGradYears "2019" = ["20"] ∧ "2019" ∉ extractGradYears "2019" := by
  constructor
  · rfl
  · decide

/-- C1 witness for the amended statement, at the text `"2019"`. -/
theorem educ_graduation_years_prefix_set_witness :
    ("20" ∈ extractGradYears "2019" ↔ "20" ∈ yearMatches "2019") ∧
    ("20" = "19" ∨ "20" = "20") :=
  ⟨(educ_graduation_years_prefix_set "2019").2.1 "20",
   (educ_graduation_years_prefix_set "2019").2.2 "20" (by decide)⟩

/-- C2 (code bug).  The job-title pattern is built as a plain (non-raw)
f-string, so its leading `'\b'` is the literal backspace character U+0008
and the compiled regex can only match text containing a backspace: for
every backspace-free input — in particular any ordinary resume text such
as `"senior software engineer"` — `job_titles` is empty, contrary to the
documented intent of matching a keyword followed by filler words and a
role word. -/
theorem job_titles_empty_without_backspace (text : String)
    (h : backspaceChar ∉ text.data) : extractJobTitles text = [] := by
  have hm : ∀ kw : String, jobMatchesFor kw text = [] := fun kw =>
    jobScanGo_eq_nil kw.data text.data.length text.data h
  simp [extractJobTitles, jobMatchesFor] at hm ⊢
  simp [hm, experienceKeywords, pySetList, dedupGo]

/-- C2 witness, at the claim's own example text: even though the text
starts with the keyword `"senior"` directly followed by a role word, no
title is extracted. -/
theorem job_titles_empty_without_backspace_witness :
    extractJobTitles "senior software engineer" = [] :=
  job_titles_empty_without_backspace "senior software engineer" (by decide)

/-- C3 (confirmed).  `_clean_text` is idempotent, and maps the empty
string to the empty string. -/
theorem clean_text_idempotent :
    (∀ s : String, cleanText (cleanText s) = cleanText s) ∧ cleanText "" = "" := by
  constructor
  · intro s
    show String.mk (cleanList (String.mk (cleanList s.data)).data) = _
    exact congrArg String.mk (cleanList_idem s.data)
  · rfl

/-- C4 (confirmed).  For every input text, `technical_skills` is sorted
descending by mention count, has at most 20 entries, and
`total_skills_found` — the number of matched keywords before truncation —
is at least its length; ties keep the original keyword-list order (per
mention count, the retained entries form a sublist of the pre-sort match
list, which is in keyword order). -/
theorem skills_sorted_capped_stable (text : String) :
    List.Pairwise (fun a b => b.mentions ≤ a.mentions)
      (extractSkills text).technicalSkills ∧
    (extractSkills text).technicalSkills.length ≤ 20 ∧
    (extractSkills text).totalSkillsFound = (foundSkills text).length ∧
    (extractSkills text).technicalSkills.length ≤ (extractSkills text).totalSkillsFound ∧
    ∀ m : Nat, List.Sublist
      ((extractSkills text).technicalSkills.filter (fun e => e.mentions == m))
      ((foundSkills text).filter (fun e => e.mentions == m)) := by
  refine ⟨?_, ?_, rfl, ?_, ?_⟩
  · have hs := List.sorted_mergeSort mentionsGe_trans mentionsGe_total (foundSkills text)
    have := hs.sublist (List.take_sublist 20 _)
    exact this.imp (fun h => by simpa [mentionsGe] using h)
  · exact List.length_take_le 20 _
  · show (technicalSkills text).length ≤ (foundSkills text).length
    calc (technicalSkills text).length
        ≤ ((foundSkills text).mergeSort mentionsGe).length :=
          (List.take_sublist _ _).length_le
      _ = (foundSkills text).length := List.length_mergeSort _
  · intro m
    have h1 : List.Sublist
        ((technicalSkills text).filter (fun e => e.mentions == m))
        (((foundSkills text).mergeSort mentionsGe).filter (fun e => e.mentions == m)) :=
      (List.take_sublist _ _).filter _
    rwa [filter_mentions_mergeSort] at h1

/-- C5 (confirmed).  For every declared MIME type other than the three
supported ones, `parse_resume_file` fails with the unsupported-format
error regardless of what either decoder would have produced (so no decoder
result is consulted), and the error leaves the assembler unchanged. -/
theorem unsupported_mime_always_fails (file : FileInput) (parsedAt : String)
    (pdfResult docxResult : Except ParseError String)
    (h1 : file.contentType ≠ "application/pdf")
    (h2 : file.contentType ∉ supportedDocxTypes) :
    parseResumeFile file parsedAt pdfResult docxResult =
      .error (.unsupportedFormat file.contentType) := by
  simp [parseResumeFile, extractText, h1, h2]

/-- C5 witness: a PNG upload fails with the unsupported-format error even
when both decoders would have succeeded. -/
theorem unsupported_mime_always_fails_witness :
    parseResumeFile ⟨"a.png", "image/png"⟩ "2024-01-01T00:00:00" (.ok "x") (.ok "y") =
      .error (.unsupportedFormat "image/png") :=
  unsupported_mime_always_fails ⟨"a.png", "image/png"⟩ "2024-01-01T00:00:00"
    (.ok "x") (.ok "y") (by decide) (by decide)

/-- C6 (confirmed).  `_determine_experience_level` implements exactly the
claimed thresholds, for every integer. -/
theorem experience_level_thresholds :
    determineExperienceLevel none = "unknown" ∧
    (∀ y : Int, y < 2 → determineExperienceLevel (some y) = "entry_level") ∧
    (∀ y : Int, 2 ≤ y → y < 5 → determineExperienceLevel (some y) = "junior") ∧
    (∀ y : Int, 5 ≤ y → y < 10 → determineExperienceLevel (some y) = "mid_level") ∧
    (∀ y : Int, 10 ≤ y → determineExperienceLevel (some y) = "senior") := by
  refine ⟨rfl, ?_, ?_, ?_, ?_⟩
  · intro y h
    simp only [determineExperienceLevel]
    rw [if_pos h]
  · intro y h1 h2
    simp only [determineExperienceLevel]
    rw [if_neg (by omega), if_pos h2]
  · intro y h1 h2
    simp only [determineExperienceLevel]
    rw [if_neg (by omega), if_neg (by omega), if_pos h2]
  · intro y h
    simp only [determineExperienceLevel]
    rw [if_neg (by omega), if_neg (by omega), if_neg (by omega)]

/-- C6 witness, at the spec's sample points 1, 4, 9, 10 (and `None` via
the first conjunct of the theorem). -/
theorem experience_level_thresholds_witness :
    determineExperienceLevel none = "unknown" ∧
    determineExperienceLevel (some 1) = "entry_level" ∧
    determineExperienceLevel (some 4) = "junior" ∧
    determineExperienceLevel (some 9) = "mid_level" ∧
    determineExperienceLevel (some 10) = "senior" :=
  ⟨experience_level_thresholds.1,
   experience_level_thresholds.2.1 1 (by decide),
   experience_level_thresholds.2.2.1 4 (by decide) (by decide),
   experience_level_thresholds.2.2.2.1 9 (by decide) (by decide),
   experience_level_thresholds.2.2.2.2 10 (by decide)⟩

/-- C7 (confirmed).  `total_years_experience` is `None` exactly when the
years-of-experience pattern never matches, and otherwise is the maximum
captured number over all matches; on the spec's example text containing
both "5 years of experience" and "3+ years of experience" it is 5. -/
theorem total_years_is_max (text : String) :
    (extractTotalYears text = none ↔ expMatches text = []) ∧
    (∀ m : Nat, extractTotalYears text = some m →
      m ∈ expMatches text ∧ ∀ n ∈ expMatches text, n ≤ m) ∧
    extractTotalYears "5 years of experience and 3+ years of experience" = some 5 := by
  refine ⟨?_, ?_, by decide⟩
  · rw [extractTotalYears]
    cases h : expMatches text <;> simp
  · intro m hm
    rw [extractTotalYears] at hm
    cases h : expMatches text with
    | nil => rw [h] at hm; simp at hm
    | cons n ns =>
      rw [h] at hm
      simp only [Option.some.injEq] at hm
      subst hm
      constructor
      · rcases foldl_max_mem ns n with h' | h'
        · rw [h']; exact List.mem_cons_self _ _
        · exact List.mem_cons_of_mem _ h'
      · intro k hk
        rcases List.mem_cons.mp hk with rfl | hk'
        · exact (foldl_max_le ns k).1
        · exact (foldl_max_le ns n).2 k hk'

/-- C7 witness, at the example text: 5 is one of the captured numbers and
bounds all of them. -/
theorem total_years_is_max_witness :
    5 ∈ expMatches "5 years of experience and 3+ years of experience" ∧
    ∀ n ∈ expMatches "5 years of experience and 3+ years of experience", n ≤ 5 :=
  (total_years_is_max "5 years of experience and 3+ years of experience").2.1 5
    (by decide)

/-- C8 (confirmed).  The extracted name is the first of the first five
(stripped) lines accepted by the spec's rule — no skip keyword, 2–4
tokens, each alphabetic once periods are removed, at least one token
capitalized — and is null when no line qualifies (entity recognition
unavailable). -/
theorem name_is_first_accepted_line (text : String) :
    extractName text =
      ((((pySplitNl text.data).take 5).map pyStrip).find? specNameAccept).map
        String.mk := by
  rw [extractName, findNameLoop_eq]

/-- C9 (corrected).  The summary extractor follows the claim except for
the source tag of a degenerate match: the tag is computed by Python
truthiness (`"extracted" if summary_text else "not_found"`), so when the
first keyword line is followed by lines that trim to the empty string the
summary is `""` with tag `"not_found"`, not `"extracted"`.  The amended
behaviour is captured by `specSummary` and holds for every input text. -/
theorem summary_matches_amended_spec (text : String) :
    extractSummary text = specSummary text := by
  rw [extractSummary, specSummary, summaryGo_eq]
  cases kwLineIdx (pySplitNl text.data) <;> rfl

/-- C9 counterexample: the single-line text `"about"` contains a summary
keyword, yet the extractor returns the empty-string summary with source
tag `"not_found"`, where the claim demands `"extracted"`. -/
theorem summary_tag_counterexample :
    lineHasAnyKw summaryKeywords "about".data = true ∧
    extractSummary "about" = { summary := some "", source := "not_found" } ∧
    (extractSummary "about").source ≠ "extracted" := by
  refine ⟨by decide, by decide, by decide⟩

/-- C10 (confirmed).  Normalized text contains no newline — the
whitespace-collapsing pass has already replaced every newline with a
space before the newline-collapsing pass runs — so splitting it on
newlines yields exactly one line, and every line-based extractor sees the
whole normalized text as that single line. -/
theorem normalized_text_single_line (s : String) :
    '\n' ∉ (cleanText s).data ∧
    pySplitNl (cleanText s).data = [(cleanText s).data] := by
  have h : '\n' ∉ (cleanText s).data := no_newline_cleanList s.data
  exact ⟨h, pySplitNl_no_nl _ h⟩

end ResumeParser
